import Mathlib

/-!
Verification development for the `asserting` convention-driven test
framework (Go).  The definitions below are a shallow embedding of the
source:

* `Run`          — the reflective Dispatcher (latest revision, the one with
                   `BeforeAll` / `BeforeEach` hook support);
* `CallerInfo`   — the call-stack attribution resolver;
* `isTest`       — the entry-point name classifier borrowed from `go test`;
* `Assert`, `AssertFalse`, `AssertCreated` — the assertion predicates of
  the early `asserting.go` revision (plain messages, no location suffix).

Machine integers of the Go source are modelled as `Int` (all values in the
claims are far from the 64-bit range, so no wrap-around is observable);
Go's truncating integer division is `Int.tdiv`.
-/

/-- Go `strings.HasPrefix(s, pre)` (byte prefix; for the valid UTF-8
strings involved this coincides with character-list prefix). -/
def hasPrefixGo (s pre : String) : Bool :=
  pre.toList.isPrefixOf s.toList

/-- Go `strings.Split(s, sep)` for a one-character separator, on the
character list of the string.  `strings.Split("", "/") = [""]`. -/
def splitOnChar (sep : Char) : List Char → List (List Char)
  | [] => [[]]
  | c :: rest =>
    match splitOnChar sep rest with
    | [] => if c = sep then [[], []] else [[c]]
    | s :: ss => if c = sep then [] :: s :: ss else (c :: s) :: ss

/-- Helper for `strContains`: does `sub` occur at any position. -/
def containsAux (sub : List Char) : List Char → Bool
  | [] => sub.isPrefixOf []
  | c :: rest => sub.isPrefixOf (c :: rest) || containsAux sub rest

/-- Go `strings.Contains(s, sub)`. -/
def strContains (s sub : String) : Bool :=
  containsAux sub.toList s.toList

/-- The `go test` entry-point classifier, from the source:
`isTest(name, prefix)` — `name` starts with the prefix and, when longer,
the next character is not a lower-case letter. -/
def isTest (name pre : String) : Bool :=
  if ¬ hasPrefixGo name pre then false
  else if name.toList.length = pre.toList.length then true
  else
    match (name.toList.drop pre.toList.length).head? with
    | none => true
    | some c => !c.isLower

/-- The hook-detection loop at the top of `Run`: one pass over the method
names setting `be` on a `BeforeEach` prefix and (else-branch) `ba` on a
`BeforeAll` prefix. -/
def scanHooks : List String → Bool × Bool → Bool × Bool
  | [], s => s
  | n :: rest, (be, ba) =>
    if hasPrefixGo n "BeforeEach" then scanHooks rest (true, ba)
    else if hasPrefixGo n "BeforeAll" then scanHooks rest (be, true)
    else scanHooks rest (be, ba)

/-- The test loop of `Run`.  Modelled from the spec: the external fail
primitive's non-local exit aborts only the currently executing operation,
so every `Call` returns to the Dispatcher and an invocation is recorded as
`(name, failed?)` with `failed? = fails name`.  The second component of
the result models the Go panic raised by `reflect.Value.Call` on the zero
`Value` that `MethodByName("BeforeEach")` yields when no method has that
exact name (`hasBE` is that exact-name lookup, precomputed). -/
def runTestsLoop (fails : String → Bool) (be hasBE : Bool) :
    List String → List (String × Bool) × Option String
  | [] => ([], none)
  | m :: rest =>
    if hasPrefixGo m "Test" then
      if be then
        if hasBE then
          let r := runTestsLoop fails be hasBE rest
          (("BeforeEach", fails "BeforeEach") :: (m, fails m) :: r.1, r.2)
        else ([], some "BeforeEach")
      else
        let r := runTestsLoop fails be hasBE rest
        ((m, fails m) :: r.1, r.2)
    else runTestsLoop fails be hasBE rest

/-- The Dispatcher `Run` (latest source revision): scan for hook prefixes,
invoke `BeforeAll` (by exact name) once when a `BeforeAll`-prefixed method
exists, then for every `Test`-prefixed method invoke `BeforeEach` (exact
name) when a `BeforeEach`-prefixed method exists and then the method
itself.  Result: the invocation trace (name, failed?) and, in the second
component, `some hook` when a hook lookup panicked (see `runTestsLoop`). -/
def Run (methods : List String) (fails : String → Bool) :
    List (String × Bool) × Option String :=
  let hooks := scanHooks methods (false, false)
  if hooks.2 then
    if "BeforeAll" ∈ methods then
      let r := runTestsLoop fails hooks.1 (decide ("BeforeEach" ∈ methods)) methods
      (("BeforeAll", fails "BeforeAll") :: r.1, r.2)
    else ([], some "BeforeAll")
  else
    let r := runTestsLoop fails hooks.1 (decide ("BeforeEach" ∈ methods)) methods
    (r.1, r.2)

/-- The `Test`-prefixed names of a method list, in enumeration order. -/
def testNames (methods : List String) : List String :=
  methods.filter (fun n => hasPrefixGo n "Test")

/-- One stack frame as the resolver sees it through `runtime.Caller` /
`runtime.FuncForPC`: originating file path, line number, and the full
function name (`none` models `FuncForPC` returning `nil`). -/
structure Frame where
  file : String
  line : Nat
  funcName : Option String
deriving DecidableEq

/-- `parts[len(parts)-2]` of `strings.Split(file, "/")`: the directory
name enclosing the frame's file. -/
def frameDir (fr : Frame) : List Char :=
  let parts := splitOnChar '/' fr.file.toList
  parts.getD (parts.length - 2) []

/-- `parts[len(parts)-1]` of `strings.Split(file, "/")`: the bare file
name of the frame. -/
def frameBase (fr : Frame) : List Char :=
  let parts := splitOnChar '/' fr.file.toList
  parts.getD (parts.length - 1) []

/-- The append condition of `CallerInfo`: the directory is none of the
internal ones (`assert`, `mock`, `require`), or the file is the
test-harness-internal `mock_test.go`. -/
def keepFrame (fr : Frame) : Bool :=
  (frameDir fr != "assert".toList && frameDir fr != "mock".toList &&
    frameDir fr != "require".toList) ||
  frameBase fr == "mock_test.go".toList

/-- The short name of a frame's function: the last `.`-separated segment
of the full name, as computed in `CallerInfo`. -/
def shortName (full : String) : List Char :=
  ((splitOnChar '.' full.toList).getLast?).getD []

/-- The stop test applied to a frame's short function name: `Test`,
`Benchmark` or `Example` entry-point shape. -/
def entryLike (short : List Char) : Bool :=
  isTest (String.mk short) "Test" || isTest (String.mk short) "Benchmark" ||
    isTest (String.mk short) "Example"

/-- `file:line` token appended for a kept frame. -/
def frameToken (fr : Frame) : String :=
  String.mk (frameBase fr) ++ ":" ++ toString fr.line

/-- `if len(callers) > 0 { return callers[len(callers)-1] }; return ""`. -/
def lastOr (callers : List String) : String :=
  (callers.getLast?).getD ""

/-- The walk of `CallerInfo` with its accumulated `callers` list.  The
input list holds the frames `runtime.Caller(0), Caller(1), ...`; the end
of the list is `runtime.Caller` answering `ok = false`, upon which the Go
code does `return ""` (note: discarding the accumulated tokens).  `none`
models the Go index-out-of-range panic on `parts[len(parts)-2]` when the
file path has no `/` (and is not the `<autogenerated>` sentinel, which is
checked first). -/
def callerLoop : List Frame → List String → Option String
  | [], _ => some ""
  | fr :: rest, callers =>
    if fr.file = "<autogenerated>" then some (lastOr callers)
    else if (splitOnChar '/' fr.file.toList).length < 2 then none
    else
      let callers' :=
        if keepFrame fr then callers ++ [frameToken fr] else callers
      match fr.funcName with
      | none => some (lastOr callers')
      | some full =>
        if entryLike (shortName full) then some (lastOr callers')
        else callerLoop rest callers'

/-- `CallerInfo`, the attribution resolver, on a given call stack. -/
def CallerInfo (stack : List Frame) : Option String :=
  callerLoop stack []

/-- Modelled from the spec: the "filtered frame list" of §3 — the tokens
accumulated while walking outward until the walk stops, whichever way it
stops.  The spec's claimed output is the last element of this list (empty
result when the list is empty). -/
def specAccum : List Frame → List String
  | [] => []
  | fr :: rest =>
    if fr.file = "<autogenerated>" then []
    else if (splitOnChar '/' fr.file.toList).length < 2 then []
    else
      let tok := if keepFrame fr then [frameToken fr] else []
      match fr.funcName with
      | none => tok
      | some full =>
        if entryLike (shortName full) then tok else tok ++ specAccum rest

/-- The walk stops through one of the `break` conditions (sentinel file,
unresolvable function, entry-point-shaped name) rather than by exhausting
the stack or panicking. -/
def stopsViaBreak : List Frame → Bool
  | [] => false
  | fr :: rest =>
    if fr.file = "<autogenerated>" then true
    else if (splitOnChar '/' fr.file.toList).length < 2 then false
    else
      match fr.funcName with
      | none => true
      | some full =>
        if entryLike (shortName full) then true else stopsViaBreak rest

/-- A frame the resolver excludes from the result list: a well-formed
path in one of the internal directories, not the `mock_test.go` file. -/
def internalFrame (fr : Frame) : Bool :=
  (fr.file != "<autogenerated>") &&
  decide (2 ≤ (splitOnChar '/' fr.file.toList).length) &&
  (frameDir fr == "assert".toList || frameDir fr == "mock".toList ||
    frameDir fr == "require".toList) &&
  (frameBase fr != "mock_test.go".toList)

/-- `http.StatusCreated`. -/
def StatusCreated : Int := 201

/-- `TestCase.Assert` of the early revision: fails (with the given
message) when the condition is false.  `none` = no failure, `some msg` =
the message handed to the external fail primitive. -/
def Assert (v : Bool) : Option String :=
  if !v then some "Expected true, got false" else none

/-- `TestCase.AssertFalse` of the early revision. -/
def AssertFalse (v : Bool) : Option String :=
  if v then some "Expected false, got true" else none

/-- `TestCase.AssertCreated`: fails unless the code is 201, with the
`Fatalf("Expected 201, got %d", code)` message. -/
def AssertCreated (code : Int) : Option String :=
  if code ≠ StatusCreated then some ("Expected 201, got " ++ toString code)
  else none

/-- C7: the entry-point name classifier `isTest`, with prefix "Test",
accepts "Test", "TestFoo" and "TestHTTP", rejects "Testicular", and in
general accepts exactly the names that start with the prefix and whose
next character, if any, is not a lower-case letter. -/
theorem isTest_classification :
    isTest "Test" "Test" = true ∧ isTest "TestFoo" "Test" = true ∧
    isTest "TestHTTP" "Test" = true ∧ isTest "Testicular" "Test" = false ∧
    ∀ name : String, isTest name "Test" =
      (hasPrefixGo name "Test" &&
        (name.toList.drop 4).head?.all (fun c => !c.isLower)) := by
  refine ⟨by decide, by decide, by decide, by decide, ?_⟩
  intro name
  have e4 : ("Test" : String).toList.length = 4 := by decide
  unfold isTest
  rw [e4]
  by_cases hp : hasPrefixGo name "Test" = true
  · have hle : 4 ≤ name.toList.length := by
      have h := (List.isPrefixOf_iff_prefix.mp hp).length_le
      omega
    rw [if_neg (by simp [hp])]
    by_cases hlen : name.toList.length = 4
    · rw [if_pos hlen]
      have hdrop : name.toList.drop 4 = [] := by
        rw [List.drop_eq_nil_iff]
        omega
      rw [hdrop]
      simp [hp]
    · rw [if_neg hlen]
      cases hh : (name.toList.drop 4).head? with
      | none =>
        exfalso
        have h0 : name.toList.drop 4 = [] := List.head?_eq_none_iff.mp hh
        rw [List.drop_eq_nil_iff] at h0
        omega
      | some c => rw [hp]; simp
  · have hp' : hasPrefixGo name "Test" = false := by
      simpa using hp
    rw [if_pos hp, hp']
    simp

/-- C8: under Go's exact integer arithmetic with truncating division,
`Assert(2 == 1*4/2)` and `Assert(0 == -1+1)` do not fail,
`AssertFalse(4 == 10/3)` does not fail, and `AssertCreated(200)` fails
with a message containing both "201" and "200". -/
theorem assertions_end_to_end :
    Assert (decide ((2 : Int) = Int.tdiv (1 * 4) 2)) = none ∧
    Assert (decide ((0 : Int) = -1 + 1)) = none ∧
    AssertFalse (decide ((4 : Int) = Int.tdiv 10 3)) = none ∧
    AssertCreated 200 = some "Expected 201, got 200" ∧
    strContains ((AssertCreated 200).getD "") "201" = true ∧
    strContains ((AssertCreated 200).getD "") "200" = true := by
  refine ⟨by decide, by decide, by decide, ?_, ?_, ?_⟩ <;> decide

/-- C9: hook detection matches by prefix but hook invocation looks up the
exact name; on a value exposing only a strict extension of the hook name
(`BeforeAllSetup`, resp. `BeforeEachDB`) `Run` calls an invalid method
handle and panics (second component `some hook`) instead of dispatching
or skipping. -/
theorem run_hook_prefix_mismatch_panics :
    Run ["BeforeAllSetup", "TestFoo"] (fun _ => false) =
      ([], some "BeforeAll") ∧
    "BeforeAll" ∉ ["BeforeAllSetup", "TestFoo"] ∧
    Run ["BeforeEachDB", "TestFoo"] (fun _ => false) =
      ([], some "BeforeEach") ∧
    "BeforeEach" ∉ ["BeforeEachDB", "TestFoo"] := by
  refine ⟨by decide, by decide, by decide, by decide⟩

/-- C10: `Run` selects tests by plain string prefix, not by the `isTest`
classifier: the method "Testicular" is invoked as a test even though
`isTest` rejects that name. -/
theorem run_test_selection_is_plain_matching :
    (Run ["Testicular"] (fun _ => false)).1.map Prod.fst = ["Testicular"] ∧
    isTest "Testicular" "Test" = false := by
  refine ⟨by decide, by decide⟩

theorem scanHooks_eq (ms : List String) (be ba : Bool) :
    scanHooks ms (be, ba) =
      (be || ms.any (fun n => hasPrefixGo n "BeforeEach"),
       ba || ms.any (fun n =>
         !hasPrefixGo n "BeforeEach" && hasPrefixGo n "BeforeAll")) := by
  induction ms generalizing be ba with
  | nil => simp [scanHooks]
  | cons n rest ih =>
    by_cases h1 : hasPrefixGo n "BeforeEach" = true
    · simp [scanHooks, h1, ih, Bool.or_assoc]
    · have h1' : hasPrefixGo n "BeforeEach" = false := by simpa using h1
      by_cases h2 : hasPrefixGo n "BeforeAll" = true
      · simp [scanHooks, h1', h2, ih, Bool.or_assoc]
      · have h2' : hasPrefixGo n "BeforeAll" = false := by simpa using h2
        simp [scanHooks, h1', h2', ih]

theorem runTestsLoop_noBE (fails : String → Bool) (hb : Bool)
    (ms : List String) :
    runTestsLoop fails false hb ms =
      ((testNames ms).map (fun m => (m, fails m)), none) := by
  induction ms with
  | nil => simp [runTestsLoop, testNames]
  | cons m rest ih =>
    by_cases h : hasPrefixGo m "Test" = true
    · simp [runTestsLoop, testNames, List.filter_cons, h, ih]
    · have h' : hasPrefixGo m "Test" = false := by simpa using h
      simp [runTestsLoop, testNames, List.filter_cons, h', ih]

theorem runTestsLoop_withBE (fails : String → Bool) (ms : List String) :
    runTestsLoop fails true true ms =
      ((testNames ms).flatMap (fun m =>
        [("BeforeEach", fails "BeforeEach"), (m, fails m)]), none) := by
  induction ms with
  | nil => simp [runTestsLoop, testNames]
  | cons m rest ih =>
    by_cases h : hasPrefixGo m "Test" = true
    · simp [runTestsLoop, testNames, List.filter_cons, h, ih]
    · have h' : hasPrefixGo m "Test" = false := by simpa using h
      simp [runTestsLoop, testNames, List.filter_cons, h', ih]

theorem runTestsLoop_missingBE (fails : String → Bool) (ms : List String) :
    runTestsLoop fails true false ms =
      if ms.any (fun n => hasPrefixGo n "Test") then ([], some "BeforeEach")
      else ([], none) := by
  induction ms with
  | nil => simp [runTestsLoop]
  | cons m rest ih =>
    by_cases h : hasPrefixGo m "Test" = true
    · simp [runTestsLoop, h]
    · have h' : hasPrefixGo m "Test" = false := by simpa using h
      simp [runTestsLoop, h', ih]

theorem runTestsLoop_missingBE_fst (fails : String → Bool)
    (ms : List String) :
    (runTestsLoop fails true false ms).1 = [] := by
  rw [runTestsLoop_missingBE]
  split <;> rfl

theorem runTestsLoop_mem (fails : String → Bool) (be hb : Bool)
    (ms : List String) :
    ∀ x ∈ (runTestsLoop fails be hb ms).1,
      x.1 = "BeforeEach" ∨ hasPrefixGo x.1 "Test" = true := by
  intro x hx
  cases be with
  | false =>
    rw [runTestsLoop_noBE] at hx
    simp only [List.mem_map] at hx
    obtain ⟨m, hm, rfl⟩ := hx
    right
    show hasPrefixGo m "Test" = true
    rw [testNames] at hm
    exact (List.mem_filter.mp hm).2
  | true =>
    cases hb with
    | false =>
      rw [runTestsLoop_missingBE_fst] at hx
      simp at hx
    | true =>
      rw [runTestsLoop_withBE] at hx
      simp only [List.mem_flatMap, List.mem_cons, List.not_mem_nil,
        or_false] at hx
      obtain ⟨m, hm, hx⟩ := hx
      rcases hx with rfl | rfl
      · left; rfl
      · right
        show hasPrefixGo m "Test" = true
        rw [testNames] at hm
        exact (List.mem_filter.mp hm).2

/-- C4: with no hook operations, `Run` invokes each of the `Test`-prefixed
operations exactly once, invokes none of the others, raises no error
itself, and is a no-op when there are zero test operations. -/
theorem run_no_hooks_invokes_tests (methods : List String)
    (fails : String → Bool)
    (hnh : ∀ m ∈ methods, hasPrefixGo m "BeforeEach" = false ∧
      hasPrefixGo m "BeforeAll" = false)
    (hnd : methods.Nodup) :
    (Run methods fails).2 = none ∧
    (Run methods fails).1.map Prod.fst = testNames methods ∧
    (∀ m ∈ methods, hasPrefixGo m "Test" = true →
      ((Run methods fails).1.map Prod.fst).count m = 1) ∧
    (∀ m, hasPrefixGo m "Test" = false →
      m ∉ (Run methods fails).1.map Prod.fst) ∧
    (testNames methods = [] → (Run methods fails).1 = []) := by
  have hBE : methods.any (fun n => hasPrefixGo n "BeforeEach") = false := by
    rw [List.any_eq_false]
    intro m hm
    simp [(hnh m hm).1]
  have hBA : methods.any (fun n =>
      !hasPrefixGo n "BeforeEach" && hasPrefixGo n "BeforeAll") = false := by
    rw [List.any_eq_false]
    intro m hm
    simp [(hnh m hm).2]
  have hrun : Run methods fails =
      ((testNames methods).map (fun m => (m, fails m)), none) := by
    unfold Run
    rw [scanHooks_eq]
    simp [hBE, hBA, runTestsLoop_noBE]
  have hnames : (Run methods fails).1.map Prod.fst = testNames methods := by
    rw [hrun]
    simp [Function.comp_def]
  refine ⟨by rw [hrun], hnames, ?_, ?_, ?_⟩
  · intro m hm ht
    rw [hnames]
    refine List.count_eq_one_of_mem (hnd.filter _) ?_
    rw [testNames]
    exact List.mem_filter.mpr ⟨hm, ht⟩
  · intro m hmt hmem
    rw [hnames, testNames] at hmem
    have := List.of_mem_filter hmem
    rw [hmt] at this
    exact absurd this (by decide)
  · intro h0
    rw [hrun]
    simp [h0]

/-- Witness for C4 at a concrete no-hook value. -/
theorem run_no_hooks_invokes_tests_witness :
    ((Run ["TestA", "Other"] (fun _ => false)).1.map Prod.fst).count "TestA"
      = 1 :=
  (run_no_hooks_invokes_tests ["TestA", "Other"] (fun _ => false)
    (by decide) (by decide)).2.2.1 "TestA" (by decide) (by decide)

/-- C5 as stated is false: a test-case value exposing only the
`BeforeAll`-prefix-matching operation "BeforeAllSetup" makes `Run` panic
on the exact-name lookup, so `BeforeAll` is not invoked (exactly once or
at all). -/
theorem run_beforeAll_prefix_cex :
    ¬ (∀ (methods : List String) (fails : String → Bool),
        (∃ m ∈ methods, hasPrefixGo m "BeforeAll" = true) →
        ((Run methods fails).1.map Prod.fst).count "BeforeAll" = 1) := by
  intro h
  have h1 := h ["BeforeAllSetup"] (fun _ => false)
    ⟨"BeforeAllSetup", by decide, by decide⟩
  exact absurd h1 (by decide)

/-- C5 (amended): for every test-case value exposing an operation named
exactly `BeforeAll` (hence matching the prefix rule), `Run` invokes
`BeforeAll` exactly once, strictly before any test operation and before
anything else: it is the first entry of the invocation trace. -/
theorem run_beforeAll_exact (methods : List String) (fails : String → Bool)
    (hba : "BeforeAll" ∈ methods) :
    (Run methods fails).1.head? = some ("BeforeAll", fails "BeforeAll") ∧
    ((Run methods fails).1.map Prod.fst).count "BeforeAll" = 1 := by
  have hBA : (methods.any fun n =>
      !hasPrefixGo n "BeforeEach" && hasPrefixGo n "BeforeAll") = true := by
    rw [List.any_eq_true]
    exact ⟨"BeforeAll", hba, by decide⟩
  have hrun : Run methods fails =
      (("BeforeAll", fails "BeforeAll") ::
        (runTestsLoop fails (methods.any fun n => hasPrefixGo n "BeforeEach")
          (decide ("BeforeEach" ∈ methods)) methods).1,
       (runTestsLoop fails (methods.any fun n => hasPrefixGo n "BeforeEach")
          (decide ("BeforeEach" ∈ methods)) methods).2) := by
    unfold Run
    rw [scanHooks_eq]
    simp [hBA, hba]
  rw [hrun]
  refine ⟨rfl, ?_⟩
  have hz : "BeforeAll" ∉ (runTestsLoop fails
      (methods.any fun n => hasPrefixGo n "BeforeEach")
      (decide ("BeforeEach" ∈ methods)) methods).1.map Prod.fst := by
    intro hmem
    simp only [List.mem_map] at hmem
    obtain ⟨x, hx, hfst⟩ := hmem
    rcases runTestsLoop_mem fails _ _ methods x hx with h1 | h1
    · rw [hfst] at h1
      exact absurd h1 (by decide)
    · rw [hfst] at h1
      exact absurd h1 (by decide)
  simp only [List.map_cons, List.count_cons]
  rw [List.count_eq_zero.mpr hz]
  simp

/-- Witness for C5 (amended) at a concrete value. -/
theorem run_beforeAll_exact_witness :
    (Run ["BeforeAll", "TestA"] (fun _ => false)).1.head? =
      some ("BeforeAll", false) :=
  (run_beforeAll_exact ["BeforeAll", "TestA"] (fun _ => false) (by decide)).1

theorem loop_invokes_all (fails : String → Bool) (be : Bool)
    (methods : List String) (m mj : String)
    (hm : hasPrefixGo m "Test" = true)
    (hfail : (m, true) ∈ (runTestsLoop fails be
      (decide ("BeforeEach" ∈ methods)) methods).1)
    (hj : mj ∈ testNames methods) :
    mj ∈ (runTestsLoop fails be
      (decide ("BeforeEach" ∈ methods)) methods).1.map Prod.fst := by
  cases be with
  | false =>
    rw [runTestsLoop_noBE]
    have hn : ((testNames methods).map (fun x => (x, fails x))).map Prod.fst
        = testNames methods := by
      simp [Function.comp_def]
    simp only [hn]
    exact hj
  | true =>
    by_cases hbe : ("BeforeEach" ∈ methods)
    · rw [decide_eq_true hbe] at hfail ⊢
      rw [runTestsLoop_withBE]
      simp only [List.mem_map]
      exact ⟨(mj, fails mj), List.mem_flatMap.mpr ⟨mj, hj, by simp⟩, rfl⟩
    · rw [decide_eq_false hbe] at hfail
      rw [runTestsLoop_missingBE_fst] at hfail
      simp at hfail

/-- C1: the fail primitive's non-local exit (per the spec's external
interface) aborts only the failing operation, so when test operation `m`
was invoked and failed, every `Test`-prefixed operation of the same
dispatch call — in particular every subsequent one — is still invoked. -/
theorem run_invokes_subsequent_after_failure (methods : List String)
    (fails : String → Bool) (m mj : String)
    (hm : hasPrefixGo m "Test" = true)
    (hfail : (m, true) ∈ (Run methods fails).1)
    (hj : mj ∈ testNames methods) :
    mj ∈ (Run methods fails).1.map Prod.fst := by
  unfold Run at hfail ⊢
  rw [scanHooks_eq] at hfail ⊢
  simp only [Bool.false_or] at hfail ⊢
  by_cases hBA : (methods.any fun n =>
      !hasPrefixGo n "BeforeEach" && hasPrefixGo n "BeforeAll") = true
  · simp only [hBA, if_true] at hfail ⊢
    by_cases hin : "BeforeAll" ∈ methods
    · simp only [hin, if_pos] at hfail ⊢
      rcases List.mem_cons.mp hfail with heq | hloop
      · exfalso
        have : m = "BeforeAll" := congrArg Prod.fst heq
        rw [this] at hm
        exact absurd hm (by decide)
      · simp only [List.map_cons]
        exact List.mem_cons_of_mem _
          (loop_invokes_all fails _ methods m mj hm hloop hj)
    · simp only [hin, if_neg, not_false_iff] at hfail
      simp at hfail
  · have hBA' : (methods.any fun n =>
        !hasPrefixGo n "BeforeEach" && hasPrefixGo n "BeforeAll") = false := by
      simpa using hBA
    simp only [hBA', if_false] at hfail ⊢
    exact loop_invokes_all fails _ methods m mj hm hfail hj

/-- Witness for C1: `TestA` fails, `TestB` is still invoked. -/
theorem run_invokes_subsequent_after_failure_witness :
    "TestB" ∈ (Run ["TestA", "TestB"]
      (fun n => n == "TestA")).1.map Prod.fst :=
  run_invokes_subsequent_after_failure ["TestA", "TestB"]
    (fun n => n == "TestA") "TestA" "TestB" (by decide) (by decide)
    (by decide)

theorem blocks_count (fails : String → Bool) (ts : List String)
    (hts : ∀ m ∈ ts, hasPrefixGo m "Test" = true) :
    (((ts.flatMap (fun m =>
        [("BeforeEach", fails "BeforeEach"), (m, fails m)])).map
        Prod.fst).count "BeforeEach") =
      (((ts.flatMap (fun m =>
        [("BeforeEach", fails "BeforeEach"), (m, fails m)])).map
        Prod.fst).filter (fun n => hasPrefixGo n "Test")).length := by
  induction ts with
  | nil => simp
  | cons m rest ih =>
    have hm := hts m (by simp)
    have hmne : ¬ ("BeforeEach" = m) := by
      intro h
      rw [← h] at hm
      exact absurd hm (by decide)
    have ihr := ih (fun x hx => hts x (by simp [hx]))
    have hmne' : ¬ (m = "BeforeEach") := fun h => hmne h.symm
    have hpe : hasPrefixGo "BeforeEach" "Test" = false := by decide
    simp only [List.flatMap_cons, List.map_append, List.map_cons,
      List.count_append, List.count_cons, List.filter_append,
      List.filter_cons, List.length_append]
    simp [hm, hmne', hpe, ihr]

theorem blocks_pos (fails : String → Bool) (ts : List String) :
    ∀ (i : Nat) (x : String × Bool),
      (ts.flatMap (fun m =>
        [("BeforeEach", fails "BeforeEach"), (m, fails m)])).get? i =
          some x →
      hasPrefixGo x.1 "Test" = true →
      i ≠ 0 ∧
      (ts.flatMap (fun m =>
        [("BeforeEach", fails "BeforeEach"), (m, fails m)])).get? (i - 1) =
        some ("BeforeEach", fails "BeforeEach") := by
  induction ts with
  | nil =>
    intro i x hx htx
    simp at hx
  | cons m rest ih =>
    intro i x hx htx
    match i with
    | 0 =>
      simp only [List.flatMap_cons, List.cons_append, List.get?_cons_zero,
        Option.some.injEq] at hx
      have h0 : hasPrefixGo "BeforeEach" "Test" = true := by
        rw [← hx] at htx
        exact htx
      exact absurd h0 (by decide)
    | 1 =>
      refine ⟨by omega, ?_⟩
      simp [List.flatMap_cons]
    | (n + 2) =>
      have hx' : (rest.flatMap (fun m =>
          [("BeforeEach", fails "BeforeEach"), (m, fails m)])).get? n =
            some x := by
        simpa [List.flatMap_cons] using hx
      obtain ⟨hn, hbe⟩ := ih n x hx' htx
      refine ⟨by omega, ?_⟩
      have hn1 : n - 1 + 1 = n := by omega
      simp only [Nat.add_sub_cancel, List.flatMap_cons, List.cons_append,
        List.get?_cons_succ]
      rw [← hn1]
      simpa using hbe

/-- C6: whenever a `BeforeEach`-prefixed operation exists, every test
operation actually run is immediately preceded by a `BeforeEach`
invocation, and the hook's invocation count equals the number of test
operations actually run. -/
theorem run_beforeEach_count (methods : List String) (fails : String → Bool)
    (hbe : ∃ m ∈ methods, hasPrefixGo m "BeforeEach" = true) :
    (((Run methods fails).1.map Prod.fst).count "BeforeEach" =
      (((Run methods fails).1.map Prod.fst).filter
        (fun n => hasPrefixGo n "Test")).length) ∧
    (∀ (i : Nat) (x : String × Bool),
      (Run methods fails).1.get? i = some x →
      hasPrefixGo x.1 "Test" = true →
      i ≠ 0 ∧ (Run methods fails).1.get? (i - 1) =
        some ("BeforeEach", fails "BeforeEach")) := by
  have hBEany : (methods.any fun n => hasPrefixGo n "BeforeEach") = true := by
    rw [List.any_eq_true]
    obtain ⟨m, hm, hp⟩ := hbe
    exact ⟨m, hm, hp⟩
  have hchar : (Run methods fails).1 = [] ∨
      (Run methods fails).1 = [("BeforeAll", fails "BeforeAll")] ∨
      (Run methods fails).1 = (testNames methods).flatMap (fun m =>
        [("BeforeEach", fails "BeforeEach"), (m, fails m)]) ∨
      (Run methods fails).1 = ("BeforeAll", fails "BeforeAll") ::
        (testNames methods).flatMap (fun m =>
          [("BeforeEach", fails "BeforeEach"), (m, fails m)]) := by
    unfold Run
    rw [scanHooks_eq]
    simp only [Bool.false_or, hBEany]
    by_cases hBA : (methods.any fun n =>
        !hasPrefixGo n "BeforeEach" && hasPrefixGo n "BeforeAll") = true
    · simp only [hBA, if_true]
      by_cases hin : "BeforeAll" ∈ methods
      · simp only [hin, if_pos]
        by_cases hbein : "BeforeEach" ∈ methods
        · rw [decide_eq_true hbein, runTestsLoop_withBE]
          right; right; right; rfl
        · rw [decide_eq_false hbein]
          right; left
          rw [runTestsLoop_missingBE_fst]
      · simp [hin]
    · have hBA' : (methods.any fun n =>
          !hasPrefixGo n "BeforeEach" && hasPrefixGo n "BeforeAll") = false := by
        simpa using hBA
      rw [if_neg (by simp [hBA'])]
      by_cases hbein : "BeforeEach" ∈ methods
      · rw [decide_eq_true hbein, runTestsLoop_withBE]
        right; right; left; rfl
      · rw [decide_eq_false hbein]
        left
        rw [runTestsLoop_missingBE_fst]
  have hts : ∀ m ∈ testNames methods, hasPrefixGo m "Test" = true := by
    intro m hm
    rw [testNames] at hm
    exact (List.mem_filter.mp hm).2
  have hBAnotTest : hasPrefixGo "BeforeAll" "Test" = false := by decide
  rcases hchar with h | h | h | h <;> rw [h]
  · exact ⟨by simp, by intro i x hx htx; simp at hx⟩
  · constructor
    · simp [List.count_cons, List.filter_cons, hBAnotTest]
    · intro i x hx htx
      match i with
      | 0 =>
        simp only [List.get?_cons_zero, Option.some.injEq] at hx
        have h0 : hasPrefixGo "BeforeAll" "Test" = true := by
          rw [← hx] at htx
          exact htx
        exact absurd h0 (by decide)
      | (n + 1) => simp at hx
  · exact ⟨blocks_count fails (testNames methods) hts,
      blocks_pos fails (testNames methods)⟩
  · constructor
    · simp only [List.map_cons, List.count_cons, List.filter_cons]
      have := blocks_count fails (testNames methods) hts
      simp [hBAnotTest, this]
    · intro i x hx htx
      match i with
      | 0 =>
        simp only [List.get?_cons_zero, Option.some.injEq] at hx
        have h0 : hasPrefixGo "BeforeAll" "Test" = true := by
          rw [← hx] at htx
          exact htx
        exact absurd h0 (by decide)
      | (n + 1) =>
        simp only [List.get?_cons_succ] at hx
        obtain ⟨hn, hbe'⟩ := blocks_pos fails (testNames methods) n x hx htx
        refine ⟨by omega, ?_⟩
        have hn1 : n - 1 + 1 = n := by omega
        simp only [Nat.add_sub_cancel]
        rw [← hn1, List.get?_cons_succ]
        exact hbe'

/-- Witness for C6 at a concrete value. -/
theorem run_beforeEach_count_witness :
    ((Run ["BeforeEach", "TestA"] (fun _ => false)).1.map Prod.fst).count
        "BeforeEach" =
      (((Run ["BeforeEach", "TestA"] (fun _ => false)).1.map
        Prod.fst).filter (fun n => hasPrefixGo n "Test")).length :=
  (run_beforeEach_count ["BeforeEach", "TestA"] (fun _ => false)
    ⟨"BeforeEach", by decide, by decide⟩).1

theorem callerLoop_break (stack : List Frame) :
    ∀ acc : List String, stopsViaBreak stack = true →
      callerLoop stack acc = some (lastOr (acc ++ specAccum stack)) := by
  induction stack with
  | nil =>
    intro acc h
    simp [stopsViaBreak] at h
  | cons fr rest ih =>
    intro acc h
    by_cases h1 : fr.file = "<autogenerated>"
    · simp [callerLoop, specAccum, h1]
    · by_cases h2 : (splitOnChar '/' fr.file.toList).length < 2
      · simp [stopsViaBreak, h1] at h
        exact absurd h.1 (Nat.not_le.mpr h2)
      · have h2d : ¬ ((splitOnChar '/' fr.file.data).length < 2) := h2
        cases hfn : fr.funcName with
        | none =>
          simp [callerLoop, specAccum, h1, h2, h2d, hfn]
          split <;> simp
        | some full =>
          by_cases h3 : entryLike (shortName full) = true
          · simp [callerLoop, specAccum, h1, h2, h2d, hfn, h3]
            split <;> simp
          · have h3' : entryLike (shortName full) = false := by
              simpa using h3
            have hrest : stopsViaBreak rest = true := by
              simp [stopsViaBreak, h1, h2, h2d, hfn, h3'] at h
              exact h
            simp [callerLoop, specAccum, h1, h2, h2d, hfn, h3']
            rw [ih _ hrest]
            split <;> simp

theorem internalFrame_parts (fr : Frame) (h : internalFrame fr = true) :
    ¬ fr.file = "<autogenerated>" ∧
    ¬ ((splitOnChar '/' fr.file.data).length < 2) ∧
    keepFrame fr = false := by
  simp only [internalFrame, Bool.and_eq_true, bne_iff_ne, ne_eq,
    decide_eq_true_eq, Bool.or_eq_true, beq_iff_eq] at h
  obtain ⟨⟨⟨hna, hlen⟩, hdir⟩, hbase⟩ := h
  refine ⟨hna, Nat.not_lt.mpr hlen, ?_⟩
  cases hdir with
  | inr h =>
    rw [keepFrame, h]
    simpa using hbase
  | inl h' =>
    cases h' with
    | inl h =>
      rw [keepFrame, h]
      simpa using hbase
    | inr h =>
      rw [keepFrame, h]
      simpa using hbase

theorem callerLoop_exhaust (stack : List Frame) :
    ∀ acc, stopsViaBreak stack = false →
      callerLoop stack acc = none ∨ callerLoop stack acc = some "" := by
  induction stack with
  | nil =>
    intro acc h
    right
    rfl
  | cons fr rest ih =>
    intro acc h
    by_cases h1 : fr.file = "<autogenerated>"
    · simp [stopsViaBreak, h1] at h
    · by_cases h2 : (splitOnChar '/' fr.file.toList).length < 2
      · left
        have h2d : (splitOnChar '/' fr.file.data).length < 2 := h2
        simp [callerLoop, h1, h2, h2d]
      · have h2d : ¬ ((splitOnChar '/' fr.file.data).length < 2) := h2
        cases hfn : fr.funcName with
        | none => simp [stopsViaBreak, h1, h2, h2d, hfn] at h
        | some full =>
          by_cases h3 : entryLike (shortName full) = true
          · simp [stopsViaBreak, h1, h2, h2d, hfn, h3] at h
          · have h3' : entryLike (shortName full) = false := by
              simpa using h3
            have hrest : stopsViaBreak rest = false := by
              simpa [stopsViaBreak, h1, h2, h2d, hfn, h3'] using h
            have hrec := ih (if keepFrame fr then acc ++ [frameToken fr]
              else acc) hrest
            simpa [callerLoop, h1, h2, h2d, hfn, h3'] using hrec

theorem callerLoop_internal (stack : List Frame)
    (hint : ∀ fr ∈ stack, internalFrame fr = true) :
    ∀ acc, callerLoop stack acc = some (lastOr acc) ∨
      callerLoop stack acc = some "" := by
  induction stack with
  | nil =>
    intro acc
    right
    rfl
  | cons fr rest ih =>
    intro acc
    obtain ⟨h1, h2, hkeep⟩ := internalFrame_parts fr (hint fr (by simp))
    cases hfn : fr.funcName with
    | none =>
      left
      simp [callerLoop, h1, h2, hfn, hkeep]
    | some full =>
      by_cases h3 : entryLike (shortName full) = true
      · left
        simp [callerLoop, h1, h2, hfn, h3, hkeep]
      · have h3' : entryLike (shortName full) = false := by simpa using h3
        have hrec := ih (fun f hf => hint f (List.mem_cons_of_mem _ hf)) acc
        simpa [callerLoop, h1, h2, hfn, h3', hkeep] using hrec

/-- C2 as stated is false: on a stack consisting of a single ordinary
user-code frame the walk exhausts the stack (`runtime.Caller` answers
`ok = false`) and `CallerInfo` returns the empty string even though a
token had been accumulated in the filtered frame list. -/
theorem callerInfo_last_accumulated_cex :
    ¬ (∀ stack : List Frame,
        CallerInfo stack = some (lastOr (specAccum stack))) := by
  intro h
  exact absurd (h [⟨"pkg/user.go", 7, some "pkg.helper"⟩]) (by decide)

/-- C2 (amended): when the walk stops through one of the `break`
conditions (sentinel file, unresolvable function, entry-point-shaped
name), the result is the last token accumulated in the filtered frame
list — the empty string if none were accumulated; when the stack is
exhausted instead, the accumulated tokens are discarded and the result is
empty; in particular on an all-internal call chain the result is
empty. -/
theorem callerInfo_last_accumulated_amended (stack : List Frame) :
    (stopsViaBreak stack = true →
      CallerInfo stack = some (lastOr (specAccum stack))) ∧
    (stopsViaBreak stack = false → CallerInfo stack = none ∨
      CallerInfo stack = some "") ∧
    (stack.all internalFrame = true → CallerInfo stack = some "") := by
  refine ⟨?_, ?_, ?_⟩
  · intro h
    rw [CallerInfo, callerLoop_break stack [] h]
    simp
  · intro h
    rw [CallerInfo]
    exact callerLoop_exhaust stack [] h
  · intro h
    rw [CallerInfo]
    rcases callerLoop_internal stack
        (by simpa [List.all_eq_true] using h) [] with h1 | h1
    · rw [h1]
      rfl
    · exact h1

/-- Witness for C2 (amended): a break-stopped stack yields the last
accumulated token; an all-internal stack yields the empty string. -/
theorem callerInfo_last_accumulated_amended_witness :
    CallerInfo [⟨"a/user_test.go", 3, some "pkg.TestAll"⟩] =
      some (lastOr (specAccum [⟨"a/user_test.go", 3, some "pkg.TestAll"⟩])) ∧
    CallerInfo [⟨"x/assert/a.go", 9, some "assert.Fail"⟩] = some "" :=
  ⟨(callerInfo_last_accumulated_amended
      [⟨"a/user_test.go", 3, some "pkg.TestAll"⟩]).1 (by decide),
   (callerInfo_last_accumulated_amended
      [⟨"x/assert/a.go", 9, some "assert.Fail"⟩]).2.2 (by decide)⟩

theorem callerLoop_skip (pre : List Frame)
    (hpre : ∀ fr ∈ pre, internalFrame fr = true ∧
      fr.funcName.any (fun full => !entryLike (shortName full)) = true)
    (tail : List Frame) :
    ∀ acc, callerLoop (pre ++ tail) acc = callerLoop tail acc := by
  induction pre with
  | nil =>
    intro acc
    rfl
  | cons fr rest ih =>
    intro acc
    obtain ⟨hint, hfn⟩ := hpre fr (by simp)
    obtain ⟨h1, h2, hkeep⟩ := internalFrame_parts fr hint
    cases hf : fr.funcName with
    | none =>
      rw [hf] at hfn
      simp at hfn
    | some full =>
      have h3 : entryLike (shortName full) = false := by
        rw [hf] at hfn
        simpa using hfn
      have hrec := ih (fun f hf' => hpre f (List.mem_cons_of_mem _ hf')) acc
      simpa [callerLoop, h1, h2, hf, h3, hkeep] using hrec

/-- C3: on a call chain whose inner frames 1..k all come from the
recognized internal directories (with resolvable, non-entry-point
function names) and whose next frame is ordinary user code inside a test
entry point, `CallerInfo` returns exactly that user frame's `file:line`
token. -/
theorem callerInfo_attributes_user_frame (pre : List Frame) (user : Frame)
    (rest : List Frame)
    (hpre : ∀ fr ∈ pre, internalFrame fr = true ∧
      fr.funcName.any (fun full => !entryLike (shortName full)) = true)
    (h1 : ¬ user.file = "<autogenerated>")
    (h2 : 2 ≤ (splitOnChar '/' user.file.toList).length)
    (hdir : ¬ frameDir user = "assert".toList ∧
      ¬ frameDir user = "mock".toList ∧ ¬ frameDir user = "require".toList)
    (hfn : user.funcName.any
      (fun full => isTest (String.mk (shortName full)) "Test") = true) :
    CallerInfo (pre ++ user :: rest) = some (frameToken user) := by
  rw [CallerInfo, callerLoop_skip pre hpre (user :: rest) []]
  cases hf : user.funcName with
  | none =>
    rw [hf] at hfn
    simp at hfn
  | some full =>
    have hTest : isTest (String.mk (shortName full)) "Test" = true := by
      rw [hf] at hfn
      simpa using hfn
    have hent : entryLike (shortName full) = true := by
      rw [entryLike, hTest]
      simp
    have hkeep : keepFrame user = true := by
      obtain ⟨d1, d2, d3⟩ := hdir
      rw [keepFrame]
      simp
      exact Or.inl ⟨⟨d1, d2⟩, d3⟩
    have h2' : ¬ ((splitOnChar '/' user.file.toList).length < 2) := by
      omega
    simp [callerLoop, h1, h2', hf, hent, hkeep, lastOr]
    exact h2

/-- Witness for C3: one internal `assert` frame, then a user test
frame. -/
theorem callerInfo_attributes_user_frame_witness :
    CallerInfo [⟨"x/assert/assertions.go", 100, some "assert.Assert"⟩,
      ⟨"home/proj/user_test.go", 42, some "proj.TestFoo"⟩] =
      some "user_test.go:42" :=
  (callerInfo_attributes_user_frame
    [⟨"x/assert/assertions.go", 100, some "assert.Assert"⟩]
    ⟨"home/proj/user_test.go", 42, some "proj.TestFoo"⟩ []
    (by
      intro fr hfr
      simp only [List.mem_singleton] at hfr
      subst hfr
      exact ⟨by decide, by decide⟩)
    (by decide) (by decide) (by decide) (by decide)).trans (by decide)
